import Mathlib

/-!
# Verification of the darts-solver core

Shallow embedding of the darts-solver repository (`src/cpp/Game.cpp`,
`src/cpp/Solver.cpp`, `src/Distribution.cpp` and companion headers) and
proofs of the specification claims about it.

Conventions of the embedding:
* C++ `double` is modelled by `ℚ` (exact arithmetic; the claims under
  scrutiny are about control flow and algebra, not rounding).
* `Game::State` (`unsigned int`) is modelled by `ℕ`; `Game::StateDifference`
  (`int`) by `ℤ`.  Arithmetic mixing the two is done in `ℤ`, exactly as the
  C++ does after its `static_cast<StateDifference>`.
* The abstract `Distribution` collaborator is modelled by its one capability
  the game layer uses: `integrate_probability : Polygon → Vec2 → ℚ`.
  The C++ classes are polymorphic in the distribution, so the embedding is
  parametric in that function.
* Mutable caches that are observationally pure (the game's hit cache, the
  heat-map memo) are dropped; the solver's memo table and winnability set,
  which do influence results, are threaded explicitly as a `SolverSt` value.
* Recursion of the DP solver is paced by an explicit fuel argument; the C++
  recursion terminates because successor states strictly decrease, and all
  theorems that need to track the recursion take fuel at least the state.
-/

/-- 2-D vector (`Vec2` in `src/cpp/Geometry.h`): componentwise data. -/
structure Vec2 where
  x : ℚ
  y : ℚ
deriving DecidableEq, Repr

/-- A polygon is its ordered vertex list (`Polygon` in `src/cpp/Geometry.h`).
The game layer passes polygons to the distribution opaquely. -/
abbrev Polygon := List Vec2

/-- Hit types (`HitData::Type` in `src/Game.h`): enum with
`NORMAL = 0, DOUBLE = 1, TREBLE = 2`. -/
inductive HitType where
  | normal
  | double
  | treble
deriving DecidableEq, Repr

/-- Underlying enum value of a `HitData::Type`, used by `operator<`. -/
def HitType.toNat : HitType → ℕ
  | .normal => 0
  | .double => 1
  | .treble => 2

/-- Typed score delta (`struct HitData` in `src/Game.h`). -/
structure HitData where
  type : HitType
  diff : ℤ
deriving DecidableEq, Repr

/-- `HitData::operator<` (`src/Game.h` lines 69–74): by type, then by diff. -/
def HitData.lt (a b : HitData) : Prop :=
  a.type.toNat < b.type.toNat ∨ (a.type = b.type ∧ a.diff < b.diff)

instance : DecidablePred fun p : HitData × HitData => HitData.lt p.1 p.2 :=
  fun _ => by unfold HitData.lt; infer_instance

instance (a b : HitData) : Decidable (HitData.lt a b) := by
  unfold HitData.lt; infer_instance

/-- A scoring region (`Target::Bed` in `src/Game.h`): polygon plus hit data. -/
structure Bed where
  shape : Polygon
  hit : HitData
deriving DecidableEq, Repr

/-- A target is its ordered bed list (`Target` in `src/Game.h`). -/
abbrev Target := List Bed

/-- The game layer's view of a distribution:
`Distribution::integrate_probability(region, offset)`. -/
abbrev Integrator := Polygon → Vec2 → ℚ

namespace GameFinishOnAny

/-- `GameFinishOnAny::handle_throw` (`src/cpp/Game.cpp` lines 68–73):
bust (negative result) leaves the state unchanged, otherwise subtract. -/
def handle_throw (current_state : ℕ) (hit_data : HitData) : ℕ :=
  if hit_data.diff + (current_state : ℤ) < 0 then
    current_state
  else
    (hit_data.diff + (current_state : ℤ)).toNat

end GameFinishOnAny

namespace GameFinishOnDouble

/-- `GameFinishOnDouble::handle_throw` (`src/cpp/Game.cpp` lines 94–105):
exact zero on a double wins, exact zero otherwise busts, negative busts,
otherwise subtract. -/
def handle_throw (current_state : ℕ) (hit_data : HitData) : ℕ :=
  if hit_data.diff + (current_state : ℤ) = 0 then
    if hit_data.type = HitType.double then 0 else current_state
  else if hit_data.diff + (current_state : ℤ) < 0 then
    current_state
  else
    (hit_data.diff + (current_state : ℤ)).toNat

end GameFinishOnDouble

/-! ## The hit-distribution engine (`Game::throw_at_distribution_`) -/

/-- One `result[key] += value` step on a `std::map<HitData, double>`,
represented as its sorted key/value list. A fresh key is inserted at its
ordered position with default value `0.0` before the addition. -/
def mapInsertAdd : List (HitData × ℚ) → HitData → ℚ → List (HitData × ℚ)
  | [], k, v => [(k, v)]
  | (k', v') :: rest, k, v =>
    if HitData.lt k k' then (k, v) :: (k', v') :: rest
    else if k = k' then (k', v' + v) :: rest
    else (k', v') :: mapInsertAdd rest k v

/-- Value stored for key `k` (0 if absent), mirroring reading a
`std::map<HitData, double>` entry. -/
def lookupD : List (HitData × ℚ) → HitData → ℚ
  | [], _ => 0
  | e :: rest, k => if e.1 = k then e.2 else lookupD rest k

namespace Game

/-- `Game::throw_at_distribution_` (`src/cpp/Game.cpp` lines 13–35): for each
bed accumulate its integrated probability into a `HitData`-keyed map, then add
`1.0 - total` (unclamped) to the `(NORMAL, 0)` miss entry and flatten in key
order. The `throw_at_cache_` memo is observationally pure and is dropped. -/
def throw_at_distribution (integ : Integrator) (target : Target) (p : Vec2) :
    List (HitData × ℚ) :=
  let acc := target.foldl
    (fun (acc : List (HitData × ℚ) × ℚ) bed =>
      let probability := integ bed.shape p
      (mapInsertAdd acc.1 bed.hit probability, acc.2 + probability))
    ([], 0)
  mapInsertAdd acc.1 ⟨HitType.normal, 0⟩ (1 - acc.2)

end Game

/-- Integrator and target used to exhibit the missing clamp in
`Game::throw_at_distribution_`: a single bed whose integral is `3/2 > 1`. -/
def overshootInteg : Integrator := fun _ _ => 3 / 2

/-- Square polygon used by the concrete examples. -/
def squarePoly : Polygon := [⟨-1, -1⟩, ⟨1, -1⟩, ⟨1, 1⟩, ⟨-1, 1⟩]

/-- One-bed target whose integrated probability overshoots 1. -/
def overshootTarget : Target := [⟨squarePoly, ⟨HitType.double, -2⟩⟩]

/-! ## State transitions (`GameFinishOnAny::throw_at`,
`GameFinishOnDouble::throw_at`) -/

/-- `GameFinishOnAny::throw_at` (`src/cpp/Game.cpp` lines 82–91): one output
entry per hit-distribution entry, mapped through `handle_throw`. -/
def GameFinishOnAny.throw_at (integ : Integrator) (target : Target) (p : Vec2)
    (current_state : ℕ) : List (ℕ × ℚ) :=
  (Game.throw_at_distribution integ target p).map
    (fun e => (GameFinishOnAny.handle_throw current_state e.1, e.2))

/-- `GameFinishOnDouble::throw_at` (`src/cpp/Game.cpp` lines 114–123). -/
def GameFinishOnDouble.throw_at (integ : Integrator) (target : Target)
    (p : Vec2) (current_state : ℕ) : List (ℕ × ℚ) :=
  (Game.throw_at_distribution integ target p).map
    (fun e => (GameFinishOnDouble.handle_throw current_state e.1, e.2))

/-- Integrator giving each bed mass `1/4`, for the duplicate-successor
example. -/
def quarterInteg : Integrator := fun _ _ => 1 / 4

/-- Two beds that both bust from state 1; the miss entry also leaves
state 1 unchanged. -/
def twoBedTarget : Target :=
  [⟨squarePoly, ⟨HitType.normal, -5⟩⟩, ⟨squarePoly, ⟨HitType.double, -7⟩⟩]

/-! ## The aim-sampling grid (`Solver::sample_aims_`) -/

namespace Solver

/-- `Solver::sample_aims_` (`src/cpp/Solver.cpp` lines 8–24): a grid of
`width_samples × height_samples` cell centers over the bounds, with
`height_samples = ⌊√num_samples⌋` and `width_samples = num_samples /
height_samples`, pushed with the x index `i` in the outer loop and the
y index `j` in the inner loop. -/
def sample_aims (min_point max_point : Vec2) (num_samples : ℕ) : List Vec2 :=
  let height_samples := Nat.sqrt num_samples
  let width_samples := num_samples / height_samples
  (List.range width_samples).flatMap (fun (i : ℕ) =>
    (List.range height_samples).map (fun (j : ℕ) =>
      (⟨min_point.x + (max_point.x - min_point.x) * ((i : ℚ) + 1 / 2) /
          (width_samples : ℚ),
        min_point.y + (max_point.y - min_point.y) * ((j : ℚ) + 1 / 2) /
          (height_samples : ℚ)⟩ : Vec2)))

end Solver

/-- The running-best update in `SolverMinThrows::solve`
(`src/cpp/Solver.cpp` lines 70–72): replace only on a strict improvement,
so earlier-enumerated aims win ties. -/
def chooseBetter (best cand : ℚ × Vec2) : ℚ × Vec2 :=
  if cand.1 < best.1 then cand else best

/-- Claim side of C7, following the spec's words: the x-coordinates of the
centers of a uniform `k × k` grid over the bounds. Orientation independent,
so any reading of "row-major" has these x-coordinates. -/
def kGridXs (min_point max_point : Vec2) (k : ℕ) : List ℚ :=
  (List.range k).map (fun (c : ℕ) =>
    min_point.x + (max_point.x - min_point.x) * ((c : ℚ) + 1 / 2) / (k : ℚ))

/-! ## The heat map (`HeatMapVisualizer::heat_map`) -/

/-- `HeatMapVisualizer::heat_map` (`src/cpp/Solver.cpp` lines 109–127):
`heat_map[j][i] = solver.solve_aim(s, center of cell (i, j))` with
`x = min.x + (max.x − min.x)·(i + 0.5)/grid_width` and
`y = min.y + (max.y − min.y)·(j + 0.5)/grid_height`. The visualizer borrows
an abstract `Solver&` and calls its virtual `solve_aim`, so the embedding is
parametric in that function; the C++ fills the matrix with the x index in
the outer loop, which writes each cell once, so the matrix is reproduced
row by row. The per-state memo is observationally pure and dropped. -/
def HeatMapVisualizer.heat_map (solver_solve_aim : ℕ → Vec2 → ℚ)
    (min_point max_point : Vec2) (grid_height grid_width : ℕ) (s : ℕ) :
    List (List ℚ) :=
  (List.range grid_height).map (fun (j : ℕ) =>
    (List.range grid_width).map (fun (i : ℕ) =>
      solver_solve_aim s
        ⟨min_point.x + (max_point.x - min_point.x) * ((i : ℚ) + 1 / 2) /
            (grid_width : ℚ),
          min_point.y + (max_point.y - min_point.y) * ((j : ℚ) + 1 / 2) /
            (grid_height : ℚ)⟩))

/-- Row-`r`, column-`c` cell of a matrix, if present. -/
def cellAt (m : List (List ℚ)) (r c : ℕ) : Option ℚ :=
  m[r]?.bind (fun row => row[c]?)

/-- Claim side of C8, following the spec's words: cell `(r, c)` holds
`solve_aim(s, bounds.min + ((c+0.5)/C, (R−r−0.5)/R)·(bounds.max−bounds.min))`,
i.e. row 0 at the top (maximal y). -/
def claimHeatCell (solver_solve_aim : ℕ → Vec2 → ℚ)
    (min_point max_point : Vec2) (grid_height grid_width : ℕ) (s : ℕ)
    (r c : ℕ) : ℚ :=
  solver_solve_aim s
    ⟨min_point.x + ((c : ℚ) + 1 / 2) / (grid_width : ℚ) *
        (max_point.x - min_point.x),
      min_point.y + (((grid_height : ℚ) - (r : ℚ) - 1 / 2) /
        (grid_height : ℚ)) * (max_point.y - min_point.y)⟩

/-- A probe solver whose value is the aim's y-coordinate; any function is a
valid `Solver::solve_aim` override. -/
def yProbe : ℕ → Vec2 → ℚ := fun _ v => v.y

/-! ## Construction paths (`NormalDistribution`, `Solver`, `Target`) -/

/-- `NormalDistribution::calculate_covariance` (`src/Distribution.cpp`
lines 36–57): population mean and covariance of the calibration points,
as the C++ loops compute them, with no size check. (With no points the C++
divides 0.0 by 0 giving NaN; in this exact model that division yields 0.
The theorems evaluate it only at nonempty lists, where the two agree.) -/
def calculate_covariance (points : List Vec2) : Vec2 × ((ℚ × ℚ) × (ℚ × ℚ)) :=
  let n : ℚ := (points.length : ℚ)
  let mx := (points.map (fun p => p.x)).sum / n
  let my := (points.map (fun p => p.y)).sum / n
  let c00 := (points.map (fun p => (p.x - mx) * (p.x - mx))).sum / n
  let c01 := (points.map (fun p => (p.x - mx) * (p.y - my))).sum / n
  let c10 := (points.map (fun p => (p.y - my) * (p.x - mx))).sum / n
  let c11 := (points.map (fun p => (p.y - my) * (p.y - my))).sum / n
  (⟨mx, my⟩, ((c00, c01), (c10, c11)))

/-- The fields a constructed `NormalDistribution` holds
(`src/Distribution.h`): covariance, mean and the calibration points. -/
structure NormalDistribution where
  cov : (ℚ × ℚ) × (ℚ × ℚ)
  mean : Vec2
  points : List Vec2
deriving DecidableEq, Repr

/-- `NormalDistribution::cov_determinant` (`src/Distribution.cpp`
lines 59–61). -/
def cov_determinant (cov : (ℚ × ℚ) × (ℚ × ℚ)) : ℚ :=
  cov.1.1 * cov.2.2 - cov.1.2 * cov.2.1

/-- `NormalDistribution(const covariance&, Vec2)` (`src/Distribution.cpp`
line 68): stores the parameters unchecked. C++ constructors can throw, so
construction is modelled in `Except`; this one has no failing branch. -/
def NormalDistribution.ofParams (cov : (ℚ × ℚ) × (ℚ × ℚ)) (mean : Vec2) :
    Except String NormalDistribution :=
  Except.ok ⟨cov, mean, []⟩

/-- `NormalDistribution(std::vector<Vec2>)` (`src/Distribution.cpp`
lines 70–72): stores the points and runs `calculate_covariance`, with no
check on the number of points and no failing branch. -/
def NormalDistribution.ofPoints (points : List Vec2) :
    Except String NormalDistribution :=
  Except.ok ⟨(calculate_covariance points).2, (calculate_covariance points).1,
    points⟩

/-- `Solver::Solver(const Game&, size_t)` (`src/cpp/Solver.h` lines 45–46):
stores `num_samples` unchecked (the game reference is borrowed); no failing
branch, also for `num_samples = 0`. -/
def Solver.construct (num_samples : ℕ) : Except String ℕ :=
  Except.ok num_samples

/-- `Target::Target(const std::vector<Bed>&)` (`src/cpp/Game.cpp` line 136):
stores the bed list unchecked; no failing branch, also for an empty list. -/
def Target.construct (beds : List Bed) : Except String Target :=
  Except.ok beds

/-! ## The minimum-expected-throws DP (`SolverMinThrows`)

The solver borrows a game; the only game capability it uses is the virtual
`throw_at(aim, state)`, so the embedding is parametric in that function
(`ThrowFn`).  `memoization_` and `winable_` are threaded explicitly as a
`SolverSt`.  The C++ recursion `solve → solve_aim → solve` terminates
because non-self transitions strictly decrease the state; the embedding
paces it with a fuel argument, and the theorems supply fuel at least the
state, which is enough whenever successors never exceed the state. -/

/-- The game capability used by the solver:
`game_.throw_at(aim, current_state)`. -/
abbrev ThrowFn := Vec2 → ℕ → List (ℕ × ℚ)

namespace SolverMinThrows

/-- `SolverMinThrows::EPSILON = 1e-9` (`src/cpp/Solver.h` line 78). -/
def EPSILON : ℚ := 1 / 1000000000

/-- `SolverMinThrows::INFINITE_SCORE = 1e9` (`src/cpp/Solver.h` line 79). -/
def INFINITE_SCORE : ℚ := 1000000000

/-- The solver's mutable tables: `memoization_` (state ↦ (score, aim)) and
`winable_` (the winnability set), as association list and membership list. -/
structure SolverSt where
  memo : List (ℕ × (ℚ × Vec2))
  winable : List ℕ
deriving DecidableEq, Repr

/-- Lookup in the memo table (`memoization_.contains` / `operator[]`). -/
def mfind : List (ℕ × (ℚ × Vec2)) → ℕ → Option (ℚ × Vec2)
  | [], _ => none
  | e :: rest, s => if e.1 = s then some e.2 else mfind rest s

/-- Loop body of `SolverMinThrows::solve_aim` (`src/cpp/Solver.cpp`
lines 31–44), threading `(expected, same_state_prob, tables)`: a successor
equal to `s` folds into `same_state_prob`; any other successor is first
solved recursively, then folds into `same_state_prob` if it is not in the
winnability set, else contributes `value · probability` to `expected`. -/
def solveAimGo (rec : ℕ → SolverSt → (ℚ × Vec2) × SolverSt) (s : ℕ) :
    List (ℕ × ℚ) → ℚ × ℚ × SolverSt → ℚ × ℚ × SolverSt
  | [], acc => acc
  | (state, probability) :: rest, (expected, same_state_prob, σ) =>
    if state = s then
      solveAimGo rec s rest (expected, same_state_prob + probability, σ)
    else
      let r := rec state σ
      if state ∈ r.2.winable then
        solveAimGo rec s rest
          (expected + r.1.1 * probability, same_state_prob, r.2)
      else
        solveAimGo rec s rest (expected, same_state_prob + probability, r.2)

/-- `SolverMinThrows::solve_aim` (`src/cpp/Solver.cpp` lines 26–53),
parametric in the recursive `solve` call: fold the successor loop, then
return `INFINITE_SCORE` when `same_state_prob ≥ 1 − EPSILON`, else the
closed-form `(expected + 1)/(1 − same_state_prob)`. -/
def solveAimWith (rec : ℕ → SolverSt → (ℚ × Vec2) × SolverSt)
    (game : ThrowFn) (s : ℕ) (aim : Vec2) (σ : SolverSt) : ℚ × SolverSt :=
  let r := solveAimGo rec s (game aim s) (0, 0, σ)
  if 1 - EPSILON ≤ r.2.1 then (INFINITE_SCORE, r.2.2)
  else ((r.1 + 1) / (1 - r.2.1), r.2.2)

/-- Aim loop of `SolverMinThrows::solve` (`src/cpp/Solver.cpp`
lines 68–76), threading `(best, is_winable, tables)`: the best is replaced
only on a strict improvement (`chooseBetter`), and any score below
`INFINITE_SCORE` marks the state winnable. -/
def solveGo (recAim : ℕ → Vec2 → SolverSt → ℚ × SolverSt) (s : ℕ) :
    List Vec2 → (ℚ × Vec2) × Bool × SolverSt → (ℚ × Vec2) × Bool × SolverSt
  | [], acc => acc
  | aim :: rest, (best, isw, σ) =>
    let r := recAim s aim σ
    solveGo recAim s rest
      (chooseBetter best (r.1, aim),
        (if r.1 < INFINITE_SCORE then true else isw), r.2)

/-- `SolverMinThrows::solve` (`src/cpp/Solver.cpp` lines 55–82), paced by
fuel: state 0 returns `(0, origin)` and marks 0 winnable; a memoized state
returns its entry; otherwise all sampled aims are evaluated, the state is
marked winnable iff some aim scored below `INFINITE_SCORE`, and the best
`(score, aim)` is memoized and returned. At fuel 0 the model returns the
sentinel without touching the tables; the theorems supply enough fuel that
this branch is never reached on the traced path. -/
def solve (game : ThrowFn) (aims : List Vec2) :
    ℕ → ℕ → SolverSt → (ℚ × Vec2) × SolverSt
  | 0, _, σ => ((INFINITE_SCORE, ⟨0, 0⟩), σ)
  | fuel + 1, s, σ =>
    if s = 0 then ((0, ⟨0, 0⟩), ⟨σ.memo, 0 :: σ.winable⟩)
    else
      match mfind σ.memo s with
      | some v => (v, σ)
      | none =>
        let r := solveGo (solveAimWith (solve game aims fuel) game) s aims
          ((INFINITE_SCORE, ⟨0, 0⟩), false, σ)
        (r.1, ⟨(s, r.1) :: r.2.2.memo,
          if r.2.1 then s :: r.2.2.winable else r.2.2.winable⟩)

/-- `SolverMinThrows::solve_aim` as called externally, with the recursive
`solve` at the given fuel. -/
def solve_aim (game : ThrowFn) (aims : List Vec2) (fuel : ℕ) (s : ℕ)
    (aim : Vec2) (σ : SolverSt) : ℚ × SolverSt :=
  solveAimWith (solve game aims fuel) game s aim σ

/-- Specification-side description of the table evolution across one
`solve_aim` call: each non-self successor is solved in turn. -/
def succFold (rec : ℕ → SolverSt → (ℚ × Vec2) × SolverSt) (s : ℕ)
    (states : List (ℕ × ℚ)) (σ : SolverSt) : SolverSt :=
  states.foldl (fun σ e => if e.1 = s then σ else (rec e.1 σ).2) σ

/-- Table evolution: the memo only grows (entries are never overwritten),
the winnability set only grows, and the winnability status of a state that
is memoized (other than state 0) is frozen. -/
def Evol (σ σ' : SolverSt) : Prop :=
  (∀ k v, mfind σ.memo k = some v → mfind σ'.memo k = some v) ∧
  (∀ k, k ∈ σ.winable → k ∈ σ'.winable) ∧
  (∀ k, k ≠ 0 → (mfind σ.memo k).isSome →
    (k ∈ σ'.winable ↔ k ∈ σ.winable))

/-- The recursive-call contract used by the `solve_aim` characterization:
each call evolves the tables (`Evol`), inserts memo keys only at or below
the solved state, returns value 0 and marks 0 winnable on state 0, leaves a
memo entry holding its own result on any other state, and returns a
memoized entry unchanged. `solve` at positive fuel satisfies it (under the
decreasing-successor hypothesis). -/
structure RecOK (rec : ℕ → SolverSt → (ℚ × Vec2) × SolverSt) : Prop where
  evol : ∀ t σ, Evol σ (rec t σ).2
  bound : ∀ t σ k, mfind σ.memo k = none →
    (mfind (rec t σ).2.memo k).isSome → k ≤ t
  zero_val : ∀ σ, (rec 0 σ).1.1 = 0
  zero_win : ∀ σ, 0 ∈ (rec 0 σ).2.winable
  decided : ∀ t σ, t ≠ 0 → mfind (rec t σ).2.memo t = some (rec t σ).1
  memo_hit : ∀ t σ v, t ≠ 0 → mfind σ.memo t = some v → rec t σ = (v, σ)

/-- The self-loop mass of the claim's formula: total probability of
successors equal to `s` or outside the winnability set `W`. -/
def pSelfW (s : ℕ) (W : List ℕ) (states : List (ℕ × ℚ)) : ℚ :=
  ((states.filter
    (fun e => decide (e.1 = s) || ! decide (e.1 ∈ W))).map Prod.snd).sum

/-- Future-mass term of the claim's formula: the sum over winnable
successors distinct from `s` of `value(s') · probability`. -/
def expW (val : ℕ → ℚ) (s : ℕ) (W : List ℕ) (states : List (ℕ × ℚ)) : ℚ :=
  ((states.filter
    (fun e => ! decide (e.1 = s) && decide (e.1 ∈ W))).map
      (fun e => val e.1 * e.2)).sum

/-- Tiny concrete game for the solver witnesses: state 0 loops on itself,
state 1 is a dead end, larger states win with probability `1/2`, stay put
with `1/4` and fall to the dead end with `1/4`; successors never exceed the
state and all masses are non-negative. -/
def testThrow : ThrowFn := fun _ s =>
  match s with
  | 0 => [(0, 1)]
  | 1 => [(1, 1)]
  | n + 2 => [(0, 1 / 2), (n + 2, 1 / 4), (1, 1 / 4)]

/-- Single candidate aim for the solver witnesses. -/
def testAims : List Vec2 := [⟨0, 0⟩]

/-- All memoized scores are at least 1 (the invariant of the solver's memo
table under non-negative transition masses). -/
def MemoGood (σ : SolverSt) : Prop :=
  ∀ k v, mfind σ.memo k = some v → 1 ≤ v.1

end SolverMinThrows

/-! ## Theorems -/

/-- **C2.** For every state `s` and hit `(type, diff)`, the finish-on-double
transition returns `0` when `s + diff = 0` and the type is `double`; returns
`s` (bust) when `s + diff = 0` and the type is not `double`; returns `s`
(bust) when `s + diff < 0`; and returns `s + diff` otherwise. -/
theorem c2_finish_on_double_transition (s : ℕ) (hit : HitData) :
    ((s : ℤ) + hit.diff = 0 → hit.type = HitType.double →
      GameFinishOnDouble.handle_throw s hit = 0) ∧
    ((s : ℤ) + hit.diff = 0 → hit.type ≠ HitType.double →
      GameFinishOnDouble.handle_throw s hit = s) ∧
    ((s : ℤ) + hit.diff < 0 →
      GameFinishOnDouble.handle_throw s hit = s) ∧
    (0 < (s : ℤ) + hit.diff →
      (GameFinishOnDouble.handle_throw s hit : ℤ) = (s : ℤ) + hit.diff) := by
  unfold GameFinishOnDouble.handle_throw
  refine ⟨?_, ?_, ?_, ?_⟩
  · intro h0 hdbl
    rw [add_comm] at h0
    simp [h0, hdbl]
  · intro h0 hdbl
    rw [add_comm] at h0
    simp [h0, hdbl]
  · intro hneg
    rw [add_comm] at hneg
    have hne : hit.diff + (s : ℤ) ≠ 0 := by omega
    simp [hne, hneg]
  · intro hpos
    rw [add_comm] at hpos
    have hne : hit.diff + (s : ℤ) ≠ 0 := by omega
    have hnlt : ¬ hit.diff + (s : ℤ) < 0 := by omega
    simp [hne, hnlt]
    omega

/-- Witness for C2: all four branches exercised at concrete inputs. -/
theorem c2_finish_on_double_transition_witness :
    GameFinishOnDouble.handle_throw 4 ⟨HitType.double, -4⟩ = 0 ∧
    GameFinishOnDouble.handle_throw 4 ⟨HitType.treble, -4⟩ = 4 ∧
    GameFinishOnDouble.handle_throw 4 ⟨HitType.normal, -7⟩ = 4 ∧
    (GameFinishOnDouble.handle_throw 4 ⟨HitType.normal, -1⟩ : ℤ) = 3 := by
  refine ⟨?_, ?_, ?_, ?_⟩
  · exact (c2_finish_on_double_transition 4 ⟨HitType.double, -4⟩).1
      (by decide) (by decide)
  · exact (c2_finish_on_double_transition 4 ⟨HitType.treble, -4⟩).2.1
      (by decide) (by decide)
  · exact (c2_finish_on_double_transition 4 ⟨HitType.normal, -7⟩).2.2.1
      (by decide)
  · exact (c2_finish_on_double_transition 4 ⟨HitType.normal, -1⟩).2.2.2
      (by decide)

/-- **C10.** For every state `s` and every hit whose `diff` is non-positive,
`handle_throw` of both variants returns a state `≤ s`; in particular every
transition out of state `0` returns `0`, so the won state is absorbing. -/
theorem c10_transitions_monotone (s : ℕ) (hit : HitData) (hdiff : hit.diff ≤ 0) :
    GameFinishOnAny.handle_throw s hit ≤ s ∧
    GameFinishOnDouble.handle_throw s hit ≤ s ∧
    GameFinishOnAny.handle_throw 0 hit = 0 ∧
    GameFinishOnDouble.handle_throw 0 hit = 0 := by
  refine ⟨?_, ?_, ?_, ?_⟩
  · unfold GameFinishOnAny.handle_throw
    split <;> omega
  · unfold GameFinishOnDouble.handle_throw
    split
    · split <;> omega
    · split <;> omega
  · unfold GameFinishOnAny.handle_throw
    split <;> omega
  · unfold GameFinishOnDouble.handle_throw
    split
    · split <;> omega
    · split <;> omega

/-- Witness for C10 at a concrete bust and a concrete scoring hit. -/
theorem c10_transitions_monotone_witness :
    GameFinishOnAny.handle_throw 5 ⟨HitType.treble, -2⟩ ≤ 5 ∧
    GameFinishOnDouble.handle_throw 5 ⟨HitType.treble, -2⟩ ≤ 5 ∧
    GameFinishOnAny.handle_throw 0 ⟨HitType.treble, -2⟩ = 0 ∧
    GameFinishOnDouble.handle_throw 0 ⟨HitType.treble, -2⟩ = 0 :=
  c10_transitions_monotone 5 ⟨HitType.treble, -2⟩ (by decide)

/-! Order-theoretic facts about `HitData.lt` needed for the map embedding. -/

theorem HitData.lt_irrefl (a : HitData) : ¬ HitData.lt a a := by
  unfold HitData.lt; omega

theorem HitData.lt_trans {a b c : HitData} :
    HitData.lt a b → HitData.lt b c → HitData.lt a c := by
  unfold HitData.lt
  rintro (h1 | ⟨he1, h1⟩) (h2 | ⟨he2, h2⟩)
  · exact Or.inl (Nat.lt_trans h1 h2)
  · exact Or.inl (he2 ▸ h1)
  · exact Or.inl (he1 ▸ h2)
  · exact Or.inr ⟨he1.trans he2, h1.trans h2⟩

theorem HitData.lt_total {a b : HitData} (hne : a ≠ b) :
    HitData.lt a b ∨ HitData.lt b a := by
  by_cases he : a.type = b.type
  · have hd : a.diff ≠ b.diff := by
      intro hd
      exact hne (by cases a; cases b; simp_all)
    rcases lt_or_gt_of_ne hd with h | h
    · exact Or.inl (Or.inr ⟨he, h⟩)
    · exact Or.inr (Or.inr ⟨he.symm, h⟩)
  · have : a.type.toNat ≠ b.type.toNat := by
      cases ha : a.type <;> cases hb : b.type <;> simp_all [HitType.toNat]
    rcases lt_or_gt_of_ne this with h | h
    · exact Or.inl (Or.inl h)
    · exact Or.inr (Or.inl h)

/-- Keys of a `mapInsertAdd` result come from the inserted key or the map. -/
theorem mapInsertAdd_keys {m : List (HitData × ℚ)} {k : HitData} {v : ℚ}
    {e : HitData × ℚ} (he : e ∈ mapInsertAdd m k v) :
    e.1 = k ∨ ∃ b ∈ m, e.1 = b.1 := by
  induction m with
  | nil =>
    simp only [mapInsertAdd, List.mem_singleton] at he
    simp [he]
  | cons hd tl ih =>
    obtain ⟨k', v'⟩ := hd
    by_cases hlt : HitData.lt k k'
    · simp only [mapInsertAdd, if_pos hlt, List.mem_cons] at he
      rcases he with he | he | he
      · simp [he]
      · exact Or.inr ⟨(k', v'), List.mem_cons_self _ _, by simp [he]⟩
      · exact Or.inr ⟨e, List.mem_cons_of_mem _ he, rfl⟩
    · by_cases heq : k = k'
      · simp only [mapInsertAdd, if_neg hlt, if_pos heq, List.mem_cons] at he
        rcases he with he | he
        · exact Or.inr ⟨(k', v'), List.mem_cons_self _ _, by simp [he]⟩
        · exact Or.inr ⟨e, List.mem_cons_of_mem _ he, rfl⟩
      · simp only [mapInsertAdd, if_neg hlt, if_neg heq, List.mem_cons] at he
        rcases he with he | he
        · exact Or.inr ⟨(k', v'), List.mem_cons_self _ _, by simp [he]⟩
        · rcases ih he with h | ⟨b, hb, hb1⟩
          · exact Or.inl h
          · exact Or.inr ⟨b, List.mem_cons_of_mem _ hb, hb1⟩

/-- `mapInsertAdd` preserves strict key-sortedness. -/
theorem mapInsertAdd_sorted {m : List (HitData × ℚ)} (k : HitData) (v : ℚ)
    (hs : m.Pairwise (fun a b => HitData.lt a.1 b.1)) :
    (mapInsertAdd m k v).Pairwise (fun a b => HitData.lt a.1 b.1) := by
  induction m with
  | nil => simp [mapInsertAdd]
  | cons hd tl ih =>
    obtain ⟨k', v'⟩ := hd
    rcases List.pairwise_cons.mp hs with ⟨hhd, htl⟩
    by_cases hlt : HitData.lt k k'
    · simp only [mapInsertAdd, if_pos hlt]
      refine List.pairwise_cons.mpr ⟨?_, hs⟩
      intro e he
      rcases List.mem_cons.mp he with he | he
      · simpa [he] using hlt
      · exact HitData.lt_trans hlt (hhd e he)
    · by_cases heq : k = k'
      · simp only [mapInsertAdd, if_neg hlt, if_pos heq]
        exact List.pairwise_cons.mpr
          ⟨fun e he => by simpa using hhd e he, htl⟩
      · simp only [mapInsertAdd, if_neg hlt, if_neg heq]
        refine List.pairwise_cons.mpr ⟨?_, ih htl⟩
        intro e he
        rcases mapInsertAdd_keys he with h1 | ⟨b, hb, hb1⟩
        · rcases HitData.lt_total (Ne.symm heq) with h | h
          · simpa [h1] using h
          · exact absurd h hlt
        · exact hb1 ▸ hhd b hb

/-- `mapInsertAdd` adds exactly `v` to the total mass of the map. -/
theorem mapInsertAdd_sum (m : List (HitData × ℚ)) (k : HitData) (v : ℚ) :
    ((mapInsertAdd m k v).map Prod.snd).sum = (m.map Prod.snd).sum + v := by
  induction m with
  | nil => simp [mapInsertAdd]
  | cons hd tl ih =>
    obtain ⟨k', v'⟩ := hd
    by_cases hlt : HitData.lt k k'
    · simp only [mapInsertAdd, if_pos hlt, List.map_cons, List.sum_cons]
      ring
    · by_cases heq : k = k'
      · simp only [mapInsertAdd, if_neg hlt, if_pos heq, List.map_cons,
          List.sum_cons]
        ring
      · simp only [mapInsertAdd, if_neg hlt, if_neg heq, List.map_cons,
          List.sum_cons, ih]
        ring

/-- On a key-sorted map, `mapInsertAdd` adjusts exactly the inserted key. -/
theorem mapInsertAdd_lookupD {m : List (HitData × ℚ)} (k k₁ : HitData) (v : ℚ)
    (hs : m.Pairwise (fun a b => HitData.lt a.1 b.1)) :
    lookupD (mapInsertAdd m k v) k₁ =
      lookupD m k₁ + (if k = k₁ then v else 0) := by
  induction m with
  | nil =>
    by_cases hk : k = k₁ <;> simp [mapInsertAdd, lookupD, hk]
  | cons hd tl ih =>
    obtain ⟨k', v'⟩ := hd
    rcases List.pairwise_cons.mp hs with ⟨hhd, htl⟩
    by_cases hlt : HitData.lt k k'
    · simp only [mapInsertAdd, if_pos hlt]
      by_cases hk : k = k₁
      · subst hk
        have hne : k' ≠ k := fun h => HitData.lt_irrefl k (h ▸ hlt)
        have htlk : lookupD tl k = 0 := by
          clear ih htl hs
          induction tl with
          | nil => simp [lookupD]
          | cons e rest ihe =>
            have h1 : HitData.lt k' e.1 := by
              simpa using hhd e (List.mem_cons_self _ _)
            have h2 : e.1 ≠ k := fun h =>
              HitData.lt_irrefl k (HitData.lt_trans hlt (h ▸ h1))
            simp only [lookupD, h2, if_neg]
            exact ihe (fun b hb => hhd b (List.mem_cons_of_mem _ hb))
        simp [lookupD, hne, htlk]
      · simp [lookupD, hk]
    · by_cases heq : k = k'
      · subst heq
        simp only [mapInsertAdd, if_neg hlt, if_pos rfl]
        by_cases hk : k = k₁
        · subst hk
          simp [lookupD]
        · simp [lookupD, hk]
      · simp only [mapInsertAdd, if_neg hlt, if_neg heq]
        by_cases hh : k' = k₁
        · have hkk : k ≠ k₁ := fun h => heq (h.trans hh.symm)
          simp [lookupD, hh, hkk]
        · simp [lookupD, hh, ih htl]

/-- Characterization of the bed-accumulation fold inside
`Game::throw_at_distribution_`: the accumulated map stays sorted, its mass and
the running total both grow by the per-bed integrals, and each key holds the
mass of the beds carrying that key. -/
theorem throw_at_fold_spec (integ : Integrator) (p : Vec2) :
    ∀ (target : Target) (acc : List (HitData × ℚ) × ℚ),
      acc.1.Pairwise (fun a b => HitData.lt a.1 b.1) →
      (target.foldl
          (fun (acc : List (HitData × ℚ) × ℚ) bed =>
            let probability := integ bed.shape p
            (mapInsertAdd acc.1 bed.hit probability, acc.2 + probability))
          acc).1.Pairwise (fun a b => HitData.lt a.1 b.1) ∧
      (((target.foldl
          (fun (acc : List (HitData × ℚ) × ℚ) bed =>
            let probability := integ bed.shape p
            (mapInsertAdd acc.1 bed.hit probability, acc.2 + probability))
          acc).1.map Prod.snd).sum =
        (acc.1.map Prod.snd).sum + (target.map (fun b => integ b.shape p)).sum) ∧
      ((target.foldl
          (fun (acc : List (HitData × ℚ) × ℚ) bed =>
            let probability := integ bed.shape p
            (mapInsertAdd acc.1 bed.hit probability, acc.2 + probability))
          acc).2 =
        acc.2 + (target.map (fun b => integ b.shape p)).sum) ∧
      (∀ key, lookupD (target.foldl
          (fun (acc : List (HitData × ℚ) × ℚ) bed =>
            let probability := integ bed.shape p
            (mapInsertAdd acc.1 bed.hit probability, acc.2 + probability))
          acc).1 key =
        lookupD acc.1 key +
          ((target.filter (fun b => decide (b.hit = key))).map
            (fun b => integ b.shape p)).sum) := by
  intro target
  induction target with
  | nil => intro acc hacc; simp [hacc]
  | cons bed rest ih =>
    intro acc hacc
    have hacc' : (mapInsertAdd acc.1 bed.hit (integ bed.shape p)).Pairwise
        (fun a b => HitData.lt a.1 b.1) := mapInsertAdd_sorted _ _ hacc
    obtain ⟨h1, h2, h3, h4⟩ :=
      ih (mapInsertAdd acc.1 bed.hit (integ bed.shape p),
          acc.2 + integ bed.shape p) hacc'
    refine ⟨h1, ?_, ?_, ?_⟩
    · rw [List.foldl_cons] at *
      rw [h2, mapInsertAdd_sum]
      simp [List.sum_cons]
      ring
    · rw [List.foldl_cons] at *
      rw [h3]
      simp [List.sum_cons]
      ring
    · intro key
      rw [List.foldl_cons] at *
      rw [h4 key, mapInsertAdd_lookupD _ _ _ hacc]
      by_cases hk : bed.hit = key
      · simp [hk]
        ring
      · simp [hk]

/-- **C5.** For every aim, the returned hit distribution is in strictly
increasing (hence non-decreasing) `HitData` order, carries at most one entry
per key, and its probabilities sum to 1 within `10⁻⁶` (exactly 1 in the exact
arithmetic of this model). -/
theorem c5_hit_distribution_sorted_one (integ : Integrator) (target : Target)
    (p : Vec2) :
    (Game.throw_at_distribution integ target p).Pairwise
      (fun a b => HitData.lt a.1 b.1) ∧
    ((Game.throw_at_distribution integ target p).map Prod.fst).Nodup ∧
    |((Game.throw_at_distribution integ target p).map Prod.snd).sum - 1| ≤
      1 / 1000000 := by
  obtain ⟨h1, h2, h3, _⟩ := throw_at_fold_spec integ p target ([], 0)
    (List.Pairwise.nil)
  have hsorted : (Game.throw_at_distribution integ target p).Pairwise
      (fun a b => HitData.lt a.1 b.1) := by
    unfold Game.throw_at_distribution
    exact mapInsertAdd_sorted _ _ h1
  refine ⟨hsorted, ?_, ?_⟩
  · exact hsorted.map Prod.fst
      (fun {a b} h heq => absurd (heq ▸ h) (HitData.lt_irrefl b.1))
  · have hsum : ((Game.throw_at_distribution integ target p).map
        Prod.snd).sum = 1 := by
      unfold Game.throw_at_distribution
      rw [mapInsertAdd_sum, h2, h3]
      simp
    rw [hsum]
    simp

/-- **C3, counterexample.** When the per-bed integrals sum to `3/2 > 1`, the
returned distribution carries the negative entry `((NORMAL,0), -1/2)`: the
code adds the unclamped `1 - total` to the miss entry, not `max(0, 1-total)`,
so a returned entry does carry a negative probability. -/
theorem c3_counterexample :
    (∃ e ∈ Game.throw_at_distribution overshootInteg overshootTarget ⟨0, 0⟩,
      e.2 < 0) ∧
    lookupD (Game.throw_at_distribution overshootInteg overshootTarget ⟨0, 0⟩)
        ⟨HitType.normal, 0⟩ ≠ max 0 (1 - 3 / 2) := by
  have hdist : Game.throw_at_distribution overshootInteg overshootTarget
      ⟨0, 0⟩ = [(⟨HitType.normal, 0⟩, 1 - 3 / 2), (⟨HitType.double, -2⟩, 3 / 2)] := by
    norm_num [Game.throw_at_distribution, overshootInteg, overshootTarget,
      mapInsertAdd, HitData.lt, HitType.toNat]
  rw [hdist]
  refine ⟨⟨(⟨HitType.normal, 0⟩, 1 - 3 / 2), by simp, by norm_num⟩, ?_⟩
  norm_num [lookupD]

/-- **C3, amended.** `throw_at_distribution_` computes `total` as the sum of
the per-bed integrated probabilities and adds the *unclamped* `1 - total` to
the `(NORMAL, 0)` miss entry, on top of the mass of any bed keyed
`(NORMAL, 0)`; nothing is clamped, so when `total > 1` the miss entry is
negative. -/
theorem c3_amended_miss_entry (integ : Integrator) (target : Target)
    (p : Vec2) :
    lookupD (Game.throw_at_distribution integ target p) ⟨HitType.normal, 0⟩ =
      ((target.filter (fun b => decide (b.hit = ⟨HitType.normal, 0⟩))).map
        (fun b => integ b.shape p)).sum
      + (1 - (target.map (fun b => integ b.shape p)).sum) := by
  obtain ⟨h1, _, h3, h4⟩ := throw_at_fold_spec integ p target ([], 0)
    (List.Pairwise.nil)
  unfold Game.throw_at_distribution
  rw [mapInsertAdd_lookupD _ _ _ h1, h4, h3]
  simp [lookupD]

/-- **C4, counterexample.** From state 1 with two busting beds, both variants
return three entries all with successor state 1: probabilities of distinct
hit outcomes mapping to the same successor are *not* summed, and the
returned sequence has several entries for one successor state. -/
theorem c4_counterexample :
    GameFinishOnAny.throw_at quarterInteg twoBedTarget ⟨0, 0⟩ 1 =
      [(1, 1 / 4), (1, 1 / 2), (1, 1 / 4)] ∧
    ¬ ((GameFinishOnAny.throw_at quarterInteg twoBedTarget ⟨0, 0⟩ 1).map
        Prod.fst).Nodup ∧
    ¬ ((GameFinishOnDouble.throw_at quarterInteg twoBedTarget ⟨0, 0⟩ 1).map
        Prod.fst).Nodup := by
  have hdist : Game.throw_at_distribution quarterInteg twoBedTarget ⟨0, 0⟩ =
      [(⟨HitType.normal, -5⟩, 1 / 4), (⟨HitType.normal, 0⟩, 1 / 2),
        (⟨HitType.double, -7⟩, 1 / 4)] := by
    norm_num [Game.throw_at_distribution, quarterInteg, twoBedTarget,
      mapInsertAdd, HitData.lt, HitType.toNat]
  refine ⟨?_, ?_, ?_⟩
  · rw [GameFinishOnAny.throw_at, hdist]
    norm_num [GameFinishOnAny.handle_throw]
  · rw [GameFinishOnAny.throw_at, hdist]
    norm_num [GameFinishOnAny.handle_throw]
  · rw [GameFinishOnDouble.throw_at, hdist]
    norm_num [GameFinishOnDouble.handle_throw, HitType.double]

/-- Pushing a map through a filtered sum: successor-mass bookkeeping. -/
theorem map_filter_snd_sum {α β : Type} [DecidableEq β] (l : List (α × ℚ))
    (f : α → β) (t : β) :
    (((l.map (fun e => (f e.1, e.2))).filter
        (fun e => decide (e.1 = t))).map Prod.snd).sum =
      ((l.filter (fun e => decide (f e.1 = t))).map Prod.snd).sum := by
  induction l with
  | nil => simp
  | cons hd tl ih =>
    by_cases h : f hd.1 = t
    · simp [List.filter_cons, h, ih]
    · simp [List.filter_cons, h, ih]

/-- **C4, amended.** `throw_at` of both variants returns exactly one entry
per hit-distribution entry (duplicate successors are *not* merged), and the
total probability attributed to each successor state is nevertheless the sum
of the hit probabilities mapping to it. -/
theorem c4_amended_throw_at (integ : Integrator) (target : Target) (p : Vec2)
    (s : ℕ) (t : ℕ) :
    (GameFinishOnAny.throw_at integ target p s).length =
      (Game.throw_at_distribution integ target p).length ∧
    (GameFinishOnDouble.throw_at integ target p s).length =
      (Game.throw_at_distribution integ target p).length ∧
    (((GameFinishOnAny.throw_at integ target p s).filter
        (fun e => decide (e.1 = t))).map Prod.snd).sum =
      (((Game.throw_at_distribution integ target p).filter
        (fun e => decide (GameFinishOnAny.handle_throw s e.1 = t))).map
          Prod.snd).sum ∧
    (((GameFinishOnDouble.throw_at integ target p s).filter
        (fun e => decide (e.1 = t))).map Prod.snd).sum =
      (((Game.throw_at_distribution integ target p).filter
        (fun e => decide (GameFinishOnDouble.handle_throw s e.1 = t))).map
          Prod.snd).sum := by
  refine ⟨?_, ?_, ?_, ?_⟩
  · simp [GameFinishOnAny.throw_at]
  · simp [GameFinishOnDouble.throw_at]
  · exact map_filter_snd_sum _ _ _
  · exact map_filter_snd_sum _ _ _

/-- **C7, counterexample.** With `N = 8` samples over the unit box, the code
produces the `4 × 2` aim `(1/8, 1/4)` whose x-coordinate is not the
x-coordinate of any cell center of a `k × k` grid with `k = ⌊√8⌋ = 2`: the
candidate aims are not the centers of a `k × k` grid. -/
theorem c7_counterexample :
    (⟨1 / 8, 1 / 4⟩ : Vec2) ∈ Solver.sample_aims ⟨0, 0⟩ ⟨1, 1⟩ 8 ∧
    ∀ x ∈ kGridXs ⟨0, 0⟩ ⟨1, 1⟩ (Nat.sqrt 8), x ≠ 1 / 8 := by
  have h2 : Nat.sqrt 8 = 2 := ((Nat.eq_sqrt).mpr (by norm_num)).symm
  constructor
  · refine List.mem_flatMap.mpr ⟨0, ?_, ?_⟩
    · simp [Solver.sample_aims, h2]
    · refine List.mem_map.mpr ⟨0, ?_, ?_⟩
      · simp [Solver.sample_aims, h2]
      · simp only [Solver.sample_aims, h2]
        norm_num
  · intro x hx
    simp only [kGridXs, h2, List.mem_map, List.range_succ, List.range_zero,
      List.mem_append, List.mem_singleton, List.nil_append] at hx
    obtain ⟨c, hc, hcx⟩ := hx
    rcases hc with hc | hc <;> subst hc <;> subst hcx <;> norm_num

/-- Indexing a constant-inner-length nested enumeration: element `i*h + j`
of `flatMap` over `range w` of `h`-element blocks is block `i`, slot `j`. -/
theorem flatMap_range_getElem {α : Type} :
    ∀ (w : ℕ) (f : ℕ → ℕ → α) (h i j : ℕ), i < w → j < h →
      ((List.range w).flatMap
        (fun i => (List.range h).map (f i)))[i * h + j]? = some (f i j) := by
  intro w
  induction w with
  | zero => intro f h i j hi hj; omega
  | succ w ih =>
    intro f h i j hi hj
    rw [List.range_succ_eq_map, List.flatMap_cons, List.flatMap_map]
    rcases Nat.eq_zero_or_pos i with hi0 | hip
    · subst hi0
      have hlen : j < ((List.range h).map (f 0)).length := by simpa using hj
      rw [Nat.zero_mul, Nat.zero_add, List.getElem?_append, if_pos hlen]
      simp [List.getElem?_map, List.getElem?_range, hj]
    · obtain ⟨i', rfl⟩ := Nat.exists_eq_add_of_le' hip
      have hsm : (i' + 1) * h = i' * h + h := by ring
      have hlen : ((List.range h).map (f 0)).length = h := by simp
      have hge : ¬ ((i' + 1) * h + j < ((List.range h).map (f 0)).length) := by
        rw [hlen, hsm]
        omega
      rw [List.getElem?_append, if_neg hge, hlen]
      have hidx : (i' + 1) * h + j - h = i' * h + j := by
        rw [hsm]
        omega
      rw [hidx]
      have hcomp : (fun a => (List.range h).map (f (a.succ))) =
          (fun a => (List.range h).map (f (a + 1))) := by
        funext a
        simp [Nat.succ_eq_add_one]
      rw [hcomp]
      have := ih (fun a b => f (a + 1) b) h i' j (by omega) hj
      simpa using this

/-- **C7, amended.** The candidate aims are the centers of a uniform
`(N div k) × k` grid over the bounds, with `k = ⌊√N⌋` rows in the y
direction and `N div k` columns in the x direction; they are enumerated
with the x index outermost (cell `(i, j)` at position `i·k + j`), and the
running-best update of `solve` keeps the earlier-enumerated aim on ties. -/
theorem c7_amended_sample_aims (min_point max_point : Vec2) (N i j : ℕ)
    (hi : i < N / Nat.sqrt N) (hj : j < Nat.sqrt N) :
    (Solver.sample_aims min_point max_point N).length =
      (N / Nat.sqrt N) * Nat.sqrt N ∧
    (Solver.sample_aims min_point max_point N)[i * Nat.sqrt N + j]? =
      some (⟨min_point.x + (max_point.x - min_point.x) * ((i : ℚ) + 1 / 2) /
          ((N / Nat.sqrt N : ℕ) : ℚ),
        min_point.y + (max_point.y - min_point.y) * ((j : ℚ) + 1 / 2) /
          ((Nat.sqrt N : ℕ) : ℚ)⟩ : Vec2) ∧
    (∀ best cand : ℚ × Vec2, cand.1 = best.1 → chooseBetter best cand = best) := by
  refine ⟨?_, ?_, ?_⟩
  · simp [Solver.sample_aims, List.length_flatMap, Function.comp_def,
      List.map_const', List.sum_replicate, smul_eq_mul]
  · exact flatMap_range_getElem (N / Nat.sqrt N) _ (Nat.sqrt N) i j hi hj
  · intro best cand heq
    simp [chooseBetter, heq]

/-- **C8, counterexample.** On a `2 × 1` grid over the unit box with the
y-probe solver, the code stores `y = 1/4` in cell `(0, 0)` (row 0 at the
*bottom*), while the claim's formula puts `y = 3/4` there: `heat_map(s)[r][c]`
does not equal `solve_aim` at the claimed top-anchored aim. -/
theorem c8_counterexample :
    cellAt (HeatMapVisualizer.heat_map yProbe ⟨0, 0⟩ ⟨1, 1⟩ 2 1 5) 0 0 =
      some (1 / 4) ∧
    claimHeatCell yProbe ⟨0, 0⟩ ⟨1, 1⟩ 2 1 5 0 0 = 3 / 4 ∧
    (1 / 4 : ℚ) ≠ 3 / 4 := by
  refine ⟨?_, ?_, by norm_num⟩
  · simp only [cellAt, HeatMapVisualizer.heat_map]
    norm_num [List.range_succ, yProbe]
  · norm_num [claimHeatCell, yProbe]

/-- **C8, amended.** For every solver function, bounds, grid and state,
`heat_map(s)[r][c]` equals `solve_aim(s, aim)` with
`aim = bounds.min + ((c + 0.5)/C, (r + 0.5)/R) · (bounds.max − bounds.min)`:
row 0 corresponds to the *bottom* (minimal y) of the bounds. -/
theorem c8_amended_heat_map (solver_solve_aim : ℕ → Vec2 → ℚ)
    (min_point max_point : Vec2) (R C s r c : ℕ) (hr : r < R) (hc : c < C) :
    cellAt (HeatMapVisualizer.heat_map solver_solve_aim min_point max_point
        R C s) r c =
      some (solver_solve_aim s
        ⟨min_point.x + (max_point.x - min_point.x) * ((c : ℚ) + 1 / 2) /
            (C : ℚ),
          min_point.y + (max_point.y - min_point.y) * ((r : ℚ) + 1 / 2) /
            (R : ℚ)⟩) := by
  simp [cellAt, HeatMapVisualizer.heat_map, List.getElem?_map,
    List.getElem?_range, hr, hc, Option.bind]

/-- Witness for C8 (amended): cell `(1, 0)` of the `2 × 1` y-probe grid
holds `3/4`. -/
theorem c8_amended_heat_map_witness :
    cellAt (HeatMapVisualizer.heat_map yProbe ⟨0, 0⟩ ⟨1, 1⟩ 2 1 5) 1 0 =
      some (3 / 4) := by
  rw [c8_amended_heat_map yProbe ⟨0, 0⟩ ⟨1, 1⟩ 2 1 5 1 0 (by omega) (by omega)]
  norm_num [yProbe]

/-- **C9, counterexample.** Every cited construction path succeeds on an
invalid configuration instead of failing with a diagnostic: a normal
distribution estimated from a single point is constructed (with the
singular zero covariance, determinant 0, hence not positive definite), a
zero covariance passes `ofParams`, a zero-bed target and a zero-sample
solver are both constructed. -/
theorem c9_counterexample :
    NormalDistribution.ofPoints [⟨0, 0⟩] =
      Except.ok ⟨((0, 0), (0, 0)), ⟨0, 0⟩, [⟨0, 0⟩]⟩ ∧
    cov_determinant ((0, 0), (0, 0)) = 0 ∧
    NormalDistribution.ofParams ((0, 0), (0, 0)) ⟨0, 0⟩ =
      Except.ok ⟨((0, 0), (0, 0)), ⟨0, 0⟩, []⟩ ∧
    Target.construct ([] : List Bed) = Except.ok [] ∧
    Solver.construct 0 = Except.ok 0 := by
  refine ⟨?_, by norm_num [cov_determinant], rfl, rfl, rfl⟩
  norm_num [NormalDistribution.ofPoints, calculate_covariance]

/-- **C9, amended.** No construction-time validation exists in the cited
code: `NormalDistribution` (from parameters or from any point set, however
small), `Solver` (any sample count) and `Target` (any bed list, including
empty) always construct successfully, and a single calibration point yields
the degenerate zero covariance matrix rather than a diagnostic. -/
theorem c9_amended_no_validation (points : List Vec2)
    (cov : (ℚ × ℚ) × (ℚ × ℚ)) (mean : Vec2) (beds : List Bed) (n : ℕ)
    (p : Vec2) :
    NormalDistribution.ofPoints points =
      Except.ok ⟨(calculate_covariance points).2,
        (calculate_covariance points).1, points⟩ ∧
    NormalDistribution.ofParams cov mean = Except.ok ⟨cov, mean, []⟩ ∧
    Target.construct beds = Except.ok beds ∧
    Solver.construct n = Except.ok n ∧
    (calculate_covariance [p]).1 = p ∧
    (calculate_covariance [p]).2 = ((0, 0), (0, 0)) := by
  refine ⟨rfl, rfl, rfl, rfl, ?_, ?_⟩
  · simp [calculate_covariance]
  · simp [calculate_covariance]

namespace SolverMinThrows

theorem evol_refl (σ : SolverSt) : Evol σ σ :=
  ⟨fun _ _ h => h, fun _ h => h, fun _ _ _ => Iff.rfl⟩

theorem evol_trans {σ σ' σ'' : SolverSt} (h1 : Evol σ σ')
    (h2 : Evol σ' σ'') : Evol σ σ'' := by
  obtain ⟨m1, w1, f1⟩ := h1
  obtain ⟨m2, w2, f2⟩ := h2
  refine ⟨fun k v h => m2 k v (m1 k v h), fun k h => w2 k (w1 k h), ?_⟩
  intro k hk hs
  have hs' : (mfind σ'.memo k).isSome := by
    rcases Option.isSome_iff_exists.mp hs with ⟨v, hv⟩
    exact Option.isSome_iff_exists.mpr ⟨v, m1 k v hv⟩
  exact (f2 k hk hs').trans (f1 k hk hs)

theorem succFold_cons (rec : ℕ → SolverSt → (ℚ × Vec2) × SolverSt) (s t : ℕ)
    (p : ℚ) (rest : List (ℕ × ℚ)) (σ : SolverSt) :
    succFold rec s ((t, p) :: rest) σ =
      succFold rec s rest (if t = s then σ else (rec t σ).2) := by
  by_cases ht : t = s <;> simp [succFold, ht]

theorem succFold_evol {rec : ℕ → SolverSt → (ℚ × Vec2) × SolverSt}
    (hevol : ∀ u σ, Evol σ (rec u σ).2) (s : ℕ) :
    ∀ (states : List (ℕ × ℚ)) (σ : SolverSt),
      Evol σ (succFold rec s states σ) := by
  intro states
  induction states with
  | nil => exact fun σ => evol_refl σ
  | cons e rest ih =>
    intro σ
    obtain ⟨t, p⟩ := e
    rw [succFold_cons]
    by_cases ht : t = s
    · rw [if_pos ht]
      exact ih σ
    · rw [if_neg ht]
      exact evol_trans (hevol t σ) (ih (rec t σ).2)

theorem solveAimGo_sigma (rec : ℕ → SolverSt → (ℚ × Vec2) × SolverSt)
    (s : ℕ) :
    ∀ (states : List (ℕ × ℚ)) (exp ps : ℚ) (σ : SolverSt),
      (solveAimGo rec s states (exp, ps, σ)).2.2 =
        succFold rec s states σ := by
  intro states
  induction states with
  | nil => intro exp ps σ; rfl
  | cons e rest ih =>
    intro exp ps σ
    obtain ⟨t, p⟩ := e
    rw [succFold_cons]
    by_cases ht : t = s
    · simp only [solveAimGo, if_pos ht]
      exact ih _ _ σ
    · simp only [solveAimGo, if_neg ht]
      by_cases hw : t ∈ (rec t σ).2.winable
      · simp only [if_pos hw, if_neg ht]
        exact ih _ _ (rec t σ).2
      · simp only [if_neg hw, if_neg ht]
        exact ih _ _ (rec t σ).2

/-- Closed-form characterization of the `solve_aim` successor loop: the
incremental two-accumulator fold with in-loop winnability checks equals the
claim's filtered sums, taken against the *final* tables (`succFold`) — sound
because solved states are memoized with frozen winnability status. -/
theorem solveAimGo_spec {rec : ℕ → SolverSt → (ℚ × Vec2) × SolverSt}
    (h : RecOK rec) (s : ℕ) :
    ∀ (states : List (ℕ × ℚ)) (exp ps : ℚ) (σ : SolverSt),
      solveAimGo rec s states (exp, ps, σ) =
        (exp + expW (fun u => (rec u (succFold rec s states σ)).1.1) s
            (succFold rec s states σ).winable states,
          ps + pSelfW s (succFold rec s states σ).winable states,
          succFold rec s states σ) := by
  intro states
  induction states with
  | nil =>
    intro exp ps σ
    simp [solveAimGo, succFold, pSelfW, expW]
  | cons e rest ih =>
    intro exp ps σ
    obtain ⟨t, p⟩ := e
    rw [succFold_cons]
    by_cases ht : t = s
    · rw [if_pos ht]
      simp only [solveAimGo, if_pos ht]
      rw [ih exp (ps + p) σ]
      simp only [Prod.mk.injEq]
      refine ⟨?_, ?_, trivial⟩
      · simp [expW, List.filter_cons, ht]
      · simp [pSelfW, List.filter_cons, ht]
        ring
    · rw [if_neg ht]
      have hEc : Evol (rec t σ).2 (succFold rec s rest (rec t σ).2) :=
        succFold_evol h.evol s rest (rec t σ).2
      have hmem : t ∈ (rec t σ).2.winable ↔
          t ∈ (succFold rec s rest (rec t σ).2).winable := by
        by_cases ht0 : t = 0
        · subst ht0
          exact ⟨fun hw => hEc.2.1 0 hw, fun _ => h.zero_win σ⟩
        · have hsome : (mfind (rec t σ).2.memo t).isSome := by
            rw [h.decided t σ ht0]
            rfl
          exact (hEc.2.2 t ht0 hsome).symm
      have hval : (rec t (succFold rec s rest (rec t σ).2)).1.1 =
          (rec t σ).1.1 := by
        by_cases ht0 : t = 0
        · subst ht0
          rw [h.zero_val, h.zero_val]
        · have hm : mfind (succFold rec s rest (rec t σ).2).memo t =
              some (rec t σ).1 :=
            hEc.1 t (rec t σ).1 (h.decided t σ ht0)
          rw [h.memo_hit t _ (rec t σ).1 ht0 hm]
      by_cases hw : t ∈ (rec t σ).2.winable
      · simp only [solveAimGo, if_neg ht, if_pos hw]
        rw [ih (exp + (rec t σ).1.1 * p) ps (rec t σ).2]
        simp only [Prod.mk.injEq]
        refine ⟨?_, ?_, trivial⟩
        · simp [expW, List.filter_cons, ht, hmem.mp hw, hval]
          ring
        · simp [pSelfW, List.filter_cons, ht, hmem.mp hw]
      · have hwc : t ∉ (succFold rec s rest (rec t σ).2).winable :=
          fun hc => hw (hmem.mpr hc)
        simp only [solveAimGo, if_neg ht, if_neg hw]
        rw [ih exp (ps + p) (rec t σ).2]
        simp only [Prod.mk.injEq]
        refine ⟨?_, ?_, trivial⟩
        · simp [expW, List.filter_cons, ht, hwc]
        · simp [pSelfW, List.filter_cons, ht, hwc]
          ring

/-- The tables returned by one `solve_aim` call are exactly the successor
fold of the tables passed in. -/
theorem solveAimWith_sigma (rec : ℕ → SolverSt → (ℚ × Vec2) × SolverSt)
    (game : ThrowFn) (s : ℕ) (aim : Vec2) (σ : SolverSt) :
    (solveAimWith rec game s aim σ).2 = succFold rec s (game aim s) σ := by
  unfold solveAimWith
  by_cases hc : 1 - EPSILON ≤ (solveAimGo rec s (game aim s) (0, 0, σ)).2.1
  · simp only [if_pos hc]
    exact solveAimGo_sigma rec s (game aim s) 0 0 σ
  · simp only [if_neg hc]
    exact solveAimGo_sigma rec s (game aim s) 0 0 σ

/-- Memo keys created by the successor fold are bounded by some non-self
successor appearing in the list. -/
theorem succFold_bound {rec : ℕ → SolverSt → (ℚ × Vec2) × SolverSt}
    (hbound : ∀ u σ k, mfind σ.memo k = none →
      (mfind (rec u σ).2.memo k).isSome → k ≤ u) (s : ℕ) :
    ∀ (states : List (ℕ × ℚ)) (σ : SolverSt) (k : ℕ),
      mfind σ.memo k = none →
      (mfind (succFold rec s states σ).memo k).isSome →
      ∃ u, u ∈ states.map Prod.fst ∧ u ≠ s ∧ k ≤ u := by
  intro states
  induction states with
  | nil =>
    intro σ k hn hs
    rw [succFold] at hs
    simp only [List.foldl_nil] at hs
    rw [hn] at hs
    exact absurd hs (by simp)
  | cons e rest ih =>
    intro σ k hn hs
    obtain ⟨t, p⟩ := e
    rw [succFold_cons] at hs
    by_cases ht : t = s
    · rw [if_pos ht] at hs
      obtain ⟨u, hu, hus, hku⟩ := ih σ k hn hs
      exact ⟨u, by simp [hu], hus, hku⟩
    · rw [if_neg ht] at hs
      cases hm : mfind (rec t σ).2.memo k with
      | some v =>
        have := hbound t σ k hn (by rw [hm]; rfl)
        exact ⟨t, by simp, ht, this⟩
      | none =>
        obtain ⟨u, hu, hus, hku⟩ := ih (rec t σ).2 k hm hs
        exact ⟨u, by simp [hu], hus, hku⟩

/-- `solve_aim` evolves the tables and creates memo keys only strictly
below the solved state, when successors never exceed the state. -/
theorem solveAimWith_evol_bound {rec : ℕ → SolverSt → (ℚ × Vec2) × SolverSt}
    {game : ThrowFn} (hevol : ∀ u σ, Evol σ (rec u σ).2)
    (hbound : ∀ u σ k, mfind σ.memo k = none →
      (mfind (rec u σ).2.memo k).isSome → k ≤ u)
    (hdec : ∀ a u, ∀ e ∈ game a u, e.1 ≤ u) (s : ℕ) (aim : Vec2)
    (σ : SolverSt) :
    Evol σ (solveAimWith rec game s aim σ).2 ∧
    (∀ k, mfind σ.memo k = none →
      (mfind (solveAimWith rec game s aim σ).2.memo k).isSome → k < s) := by
  rw [solveAimWith_sigma]
  refine ⟨succFold_evol hevol s (game aim s) σ, ?_⟩
  intro k hn hs
  obtain ⟨u, hu, hus, hku⟩ := succFold_bound hbound s (game aim s) σ k hn hs
  obtain ⟨e, he, heu⟩ := List.mem_map.mp hu
  have hle : u ≤ s := heu ▸ hdec aim s e he
  omega

/-- The aim loop evolves the tables and creates memo keys only strictly
below the solved state. -/
theorem solveGo_evol_bound {recAim : ℕ → Vec2 → SolverSt → ℚ × SolverSt}
    (h : ∀ u aim σ, Evol σ (recAim u aim σ).2 ∧
      (∀ k, mfind σ.memo k = none →
        (mfind (recAim u aim σ).2.memo k).isSome → k < u)) (s : ℕ) :
    ∀ (aims : List Vec2) (best : ℚ × Vec2) (isw : Bool) (σ : SolverSt),
      Evol σ (solveGo recAim s aims (best, isw, σ)).2.2 ∧
      (∀ k, mfind σ.memo k = none →
        (mfind (solveGo recAim s aims (best, isw, σ)).2.2.memo k).isSome →
          k < s) := by
  intro aims
  induction aims with
  | nil =>
    intro best isw σ
    refine ⟨evol_refl σ, ?_⟩
    intro k hn hs
    simp only [solveGo] at hs
    rw [hn] at hs
    exact absurd hs (by simp)
  | cons aim rest ih =>
    intro best isw σ
    obtain ⟨ih1, ih2⟩ := ih (chooseBetter best ((recAim s aim σ).1, aim))
      (if (recAim s aim σ).1 < INFINITE_SCORE then true else isw)
      (recAim s aim σ).2
    refine ⟨evol_trans (h s aim σ).1 ih1, ?_⟩
    intro k hn hs
    cases hm : mfind (recAim s aim σ).2.memo k with
    | some v => exact (h s aim σ).2 k hn (by rw [hm]; rfl)
    | none => exact ih2 k hm hs

/-- The memo/winnability update at the end of a fresh `solve` evaluation
preserves `Evol` and the key bound. -/
theorem fresh_update_evol_bound (t : ℕ) (σ fold : SolverSt)
    (best : ℚ × Vec2) (isw : Bool) (hm : mfind σ.memo t = none)
    (hEv : Evol σ fold)
    (hBd : ∀ k, mfind σ.memo k = none →
      (mfind fold.memo k).isSome → k < t) :
    Evol σ ⟨(t, best) :: fold.memo,
      if isw then t :: fold.winable else fold.winable⟩ ∧
    (∀ k, mfind σ.memo k = none →
      (mfind ((t, best) :: fold.memo) k).isSome → k ≤ t) := by
  constructor
  · refine ⟨?_, ?_, ?_⟩
    · intro k v hkv
      have hkt : ¬ (t = k) := by
        intro hk
        rw [← hk, hm] at hkv
        exact absurd hkv (by simp)
      show (if t = k then some best else mfind fold.memo k) = some v
      rw [if_neg hkt]
      exact hEv.1 k v hkv
    · intro k hk
      have h1 := hEv.2.1 k hk
      cases isw with
      | true =>
        rw [if_pos rfl]
        exact List.mem_cons_of_mem _ h1
      | false =>
        simpa using h1
    · intro k hk hsome
      have hkt : ¬ (t = k) := by
        intro hkeq
        rw [← hkeq, hm] at hsome
        exact absurd hsome (by simp)
      have hfr := hEv.2.2 k hk hsome
      cases isw with
      | true =>
        rw [if_pos rfl, List.mem_cons]
        constructor
        · intro hc
          rcases hc with hc | hc
          · exact absurd hc.symm hkt
          · exact hfr.mp hc
        · intro hc
          exact Or.inr (hfr.mpr hc)
      | false =>
        simpa using hfr
  · intro k hn hsome
    have hsome' : (if t = k then some best else
        mfind fold.memo k).isSome = true := hsome
    by_cases hkt : t = k
    · omega
    · rw [if_neg hkt] at hsome'
      have := hBd k hn hsome'
      omega

/-- `solve` evolves the tables and creates memo keys only at or below the
solved state, at every fuel, when successors never exceed the state. -/
theorem solve_evol_bound (game : ThrowFn) (aims : List Vec2)
    (hdec : ∀ a u, ∀ e ∈ game a u, e.1 ≤ u) :
    ∀ (f t : ℕ) (σ : SolverSt),
      Evol σ (solve game aims f t σ).2 ∧
      (∀ k, mfind σ.memo k = none →
        (mfind (solve game aims f t σ).2.memo k).isSome → k ≤ t) := by
  intro f
  induction f with
  | zero =>
    intro t σ
    refine ⟨evol_refl σ, ?_⟩
    intro k hn hs
    simp only [solve] at hs
    rw [hn] at hs
    exact absurd hs (by simp)
  | succ f ih =>
    intro t σ
    by_cases ht0 : t = 0
    · subst ht0
      have hred : solve game aims (f + 1) 0 σ =
          ((0, ⟨0, 0⟩), ⟨σ.memo, 0 :: σ.winable⟩) := by
        simp [solve]
      rw [hred]
      refine ⟨⟨fun k v h => h, fun k h => List.mem_cons_of_mem _ h, ?_⟩, ?_⟩
      · intro k hk _
        simp [List.mem_cons, hk]
      · intro k hn hs
        rw [show SolverSt.memo ⟨σ.memo, 0 :: σ.winable⟩ = σ.memo from rfl,
          hn] at hs
        exact absurd hs (by simp)
    · cases hm : mfind σ.memo t with
      | some v =>
        have hred : solve game aims (f + 1) t σ = (v, σ) := by
          simp [solve, ht0, hm]
        rw [hred]
        refine ⟨evol_refl σ, ?_⟩
        intro k hn hs
        rw [hn] at hs
        exact absurd hs (by simp)
      | none =>
        have hper : ∀ u aim σ',
            Evol σ' ((solveAimWith (solve game aims f) game) u aim σ').2 ∧
            (∀ k, mfind σ'.memo k = none →
              (mfind ((solveAimWith (solve game aims f) game) u aim
                σ').2.memo k).isSome → k < u) :=
          fun u aim σ' => solveAimWith_evol_bound
            (fun u' σ'' => (ih u' σ'').1) (fun u' σ'' => (ih u' σ'').2)
            hdec u aim σ'
        obtain ⟨hEv, hBd⟩ := solveGo_evol_bound hper t aims
          (INFINITE_SCORE, ⟨0, 0⟩) false σ
        have hred : solve game aims (f + 1) t σ =
            ((solveGo (solveAimWith (solve game aims f) game) t aims
                ((INFINITE_SCORE, ⟨0, 0⟩), false, σ)).1,
              ⟨(t, (solveGo (solveAimWith (solve game aims f) game) t aims
                  ((INFINITE_SCORE, ⟨0, 0⟩), false, σ)).1) ::
                (solveGo (solveAimWith (solve game aims f) game) t aims
                  ((INFINITE_SCORE, ⟨0, 0⟩), false, σ)).2.2.memo,
              if (solveGo (solveAimWith (solve game aims f) game) t aims
                  ((INFINITE_SCORE, ⟨0, 0⟩), false, σ)).2.1 then
                t :: (solveGo (solveAimWith (solve game aims f) game) t aims
                  ((INFINITE_SCORE, ⟨0, 0⟩), false, σ)).2.2.winable
              else (solveGo (solveAimWith (solve game aims f) game) t aims
                  ((INFINITE_SCORE, ⟨0, 0⟩), false, σ)).2.2.winable⟩) := by
          simp only [solve, if_neg ht0, hm]
        rw [hred]
        exact fresh_update_evol_bound t σ _ _ _ hm hEv hBd

/-- Reduction of `solve` at positive fuel on a non-memoized positive
state. -/
theorem solve_fresh_eq (game : ThrowFn) (aims : List Vec2) (f t : ℕ)
    (σ : SolverSt) (ht0 : t ≠ 0) (hm : mfind σ.memo t = none) :
    solve game aims (f + 1) t σ =
      ((solveGo (solveAimWith (solve game aims f) game) t aims
          ((INFINITE_SCORE, ⟨0, 0⟩), false, σ)).1,
        ⟨(t, (solveGo (solveAimWith (solve game aims f) game) t aims
            ((INFINITE_SCORE, ⟨0, 0⟩), false, σ)).1) ::
          (solveGo (solveAimWith (solve game aims f) game) t aims
            ((INFINITE_SCORE, ⟨0, 0⟩), false, σ)).2.2.memo,
        if (solveGo (solveAimWith (solve game aims f) game) t aims
            ((INFINITE_SCORE, ⟨0, 0⟩), false, σ)).2.1 then
          t :: (solveGo (solveAimWith (solve game aims f) game) t aims
            ((INFINITE_SCORE, ⟨0, 0⟩), false, σ)).2.2.winable
        else (solveGo (solveAimWith (solve game aims f) game) t aims
            ((INFINITE_SCORE, ⟨0, 0⟩), false, σ)).2.2.winable⟩) := by
  simp only [solve, if_neg ht0, hm]

/-- `solve` at positive fuel satisfies the recursive-call contract, when
successors never exceed the state. -/
theorem solve_RecOK (game : ThrowFn) (aims : List Vec2)
    (hdec : ∀ a u, ∀ e ∈ game a u, e.1 ≤ u) (f : ℕ) :
    RecOK (solve game aims (f + 1)) := by
  refine ⟨fun t σ => (solve_evol_bound game aims hdec (f + 1) t σ).1,
    fun t σ k => (solve_evol_bound game aims hdec (f + 1) t σ).2 k,
    ?_, ?_, ?_, ?_⟩
  · intro σ
    simp [solve]
  · intro σ
    simp [solve]
  · intro t σ ht0
    cases hm : mfind σ.memo t with
    | some v =>
      have hred : solve game aims (f + 1) t σ = (v, σ) := by
        simp [solve, ht0, hm]
      rw [hred]
      exact hm
    | none =>
      rw [solve_fresh_eq game aims f t σ ht0 hm]
      simp [mfind]
  · intro t σ v ht0 hm
    simp [solve, ht0, hm]

/-- **C1.** For every state `s > 0` and aim, `SolverMinThrows::solve_aim`
folds into `p_self` both the mass of successors equal to `s` and the mass of
successors outside the winnable set; it returns `INFINITE_SCORE = 10⁹` when
`p_self ≥ 1 − EPSILON` with `EPSILON = 10⁻⁹`, and otherwise
`(1 + Σ_{s' ≠ s winnable} P(s')·V(s')) / (1 − p_self)` where `V(s')` is the
memoized `solve(s')`. The winnable set and the values are those of the
tables after all successors have been solved (`succFold`), which is what
the incremental loop observes because solved states are memoized with
frozen winnability. -/
theorem c1_solve_aim_closed_form (game : ThrowFn) (aims : List Vec2)
    (f s : ℕ) (aim : Vec2) (σ : SolverSt) (hs : 0 < s) (hf : s ≤ f)
    (hdec : ∀ a u, ∀ e ∈ game a u, e.1 ≤ u) :
    solve_aim game aims f s aim σ =
      ((if 1 - EPSILON ≤
          pSelfW s (succFold (solve game aims f) s (game aim s) σ).winable
            (game aim s) then
        INFINITE_SCORE
      else
        (1 + expW
            (fun u => (solve game aims f u
              (succFold (solve game aims f) s (game aim s) σ)).1.1) s
            (succFold (solve game aims f) s (game aim s) σ).winable
            (game aim s)) /
          (1 - pSelfW s
            (succFold (solve game aims f) s (game aim s) σ).winable
            (game aim s))),
        succFold (solve game aims f) s (game aim s) σ) ∧
    EPSILON = 1 / 1000000000 ∧ INFINITE_SCORE = 1000000000 := by
  obtain ⟨f', rfl⟩ : ∃ f', f = f' + 1 := ⟨f - 1, by omega⟩
  have hok : RecOK (solve game aims (f' + 1)) := solve_RecOK game aims hdec f'
  refine ⟨?_, rfl, rfl⟩
  unfold solve_aim solveAimWith
  rw [solveAimGo_spec hok s (game aim s) 0 0 σ]
  simp only [zero_add]
  by_cases hc : 1 - EPSILON ≤
      pSelfW s (succFold (solve game aims (f' + 1)) s (game aim s) σ).winable
        (game aim s)
  · rw [if_pos hc, if_pos hc]
  · rw [if_neg hc, if_neg hc, add_comm _ 1]

theorem testThrow_dec : ∀ a u, ∀ e ∈ testThrow a u, e.1 ≤ u := by
  intro a u e he
  match u with
  | 0 =>
    simp only [testThrow, List.mem_singleton] at he
    simp [he]
  | 1 =>
    simp only [testThrow, List.mem_singleton] at he
    simp [he]
  | n + 2 =>
    simp only [testThrow, List.mem_cons, List.not_mem_nil, or_false] at he
    rcases he with he | he | he <;> simp [he]

theorem testThrow_pos : ∀ a u, ∀ e ∈ testThrow a u, 0 ≤ e.2 := by
  intro a u e he
  match u with
  | 0 =>
    simp only [testThrow, List.mem_singleton] at he
    rw [he]
    norm_num
  | 1 =>
    simp only [testThrow, List.mem_singleton] at he
    rw [he]
    norm_num
  | n + 2 =>
    simp only [testThrow, List.mem_cons, List.not_mem_nil, or_false] at he
    rcases he with he | he | he <;> rw [he] <;> norm_num

theorem solveAimGo_nonneg {rec : ℕ → SolverSt → (ℚ × Vec2) × SolverSt}
    (hrec : ∀ u σ, MemoGood σ →
      0 ≤ (rec u σ).1.1 ∧ MemoGood (rec u σ).2) (s : ℕ) :
    ∀ (states : List (ℕ × ℚ)) (exp ps : ℚ) (σ : SolverSt), 0 ≤ exp →
      0 ≤ ps → MemoGood σ → (∀ e ∈ states, 0 ≤ e.2) →
      0 ≤ (solveAimGo rec s states (exp, ps, σ)).1 ∧
      0 ≤ (solveAimGo rec s states (exp, ps, σ)).2.1 ∧
      MemoGood (solveAimGo rec s states (exp, ps, σ)).2.2 := by
  intro states
  induction states with
  | nil =>
    intro exp ps σ he hp hg _
    exact ⟨he, hp, hg⟩
  | cons e rest ih =>
    intro exp ps σ he hp hg hpos
    obtain ⟨t, p⟩ := e
    have hp0 : (0 : ℚ) ≤ p := hpos (t, p) (List.mem_cons_self _ _)
    have hrest : ∀ e ∈ rest, (0 : ℚ) ≤ e.2 :=
      fun x hx => hpos x (List.mem_cons_of_mem _ hx)
    by_cases ht : t = s
    · simp only [solveAimGo, if_pos ht]
      exact ih exp (ps + p) σ he (by linarith) hg hrest
    · obtain ⟨hv, hg'⟩ := hrec t σ hg
      by_cases hw : t ∈ (rec t σ).2.winable
      · simp only [solveAimGo, if_neg ht, if_pos hw]
        refine ih (exp + (rec t σ).1.1 * p) ps (rec t σ).2 ?_ hp hg' hrest
        have : 0 ≤ (rec t σ).1.1 * p := mul_nonneg hv hp0
        linarith
      · simp only [solveAimGo, if_neg ht, if_neg hw]
        exact ih exp (ps + p) (rec t σ).2 he (by linarith) hg' hrest

theorem solveAimWith_ge_one {rec : ℕ → SolverSt → (ℚ × Vec2) × SolverSt}
    {game : ThrowFn}
    (hrec : ∀ u σ, MemoGood σ →
      0 ≤ (rec u σ).1.1 ∧ MemoGood (rec u σ).2)
    (hpos : ∀ a u, ∀ e ∈ game a u, 0 ≤ e.2) (s : ℕ) (aim : Vec2)
    (σ : SolverSt) (hg : MemoGood σ) :
    1 ≤ (solveAimWith rec game s aim σ).1 ∧
    MemoGood (solveAimWith rec game s aim σ).2 := by
  obtain ⟨hE, hP, hG⟩ := solveAimGo_nonneg hrec s (game aim s) 0 0 σ
    le_rfl le_rfl hg (hpos aim s)
  unfold solveAimWith
  by_cases hc : 1 - EPSILON ≤ (solveAimGo rec s (game aim s) (0, 0, σ)).2.1
  · rw [if_pos hc]
    exact ⟨by norm_num [INFINITE_SCORE], hG⟩
  · rw [if_neg hc]
    refine ⟨?_, hG⟩
    have hlt : (solveAimGo rec s (game aim s) (0, 0, σ)).2.1 <
        1 - EPSILON := lt_of_not_le hc
    have hd : (0 : ℚ) < 1 - (solveAimGo rec s (game aim s) (0, 0, σ)).2.1 := by
      have : (0 : ℚ) < EPSILON := by norm_num [EPSILON]
      linarith
    rw [le_div_iff₀ hd]
    linarith

theorem solveGo_ge_one {recAim : ℕ → Vec2 → SolverSt → ℚ × SolverSt}
    (h : ∀ u aim σ, MemoGood σ →
      1 ≤ (recAim u aim σ).1 ∧ MemoGood (recAim u aim σ).2) (s : ℕ) :
    ∀ (aims : List Vec2) (best : ℚ × Vec2) (isw : Bool) (σ : SolverSt),
      1 ≤ best.1 → MemoGood σ →
      1 ≤ (solveGo recAim s aims (best, isw, σ)).1.1 ∧
      MemoGood (solveGo recAim s aims (best, isw, σ)).2.2 := by
  intro aims
  induction aims with
  | nil =>
    intro best isw σ hb hg
    exact ⟨hb, hg⟩
  | cons aim rest ih =>
    intro best isw σ hb hg
    obtain ⟨h1, h2⟩ := h s aim σ hg
    refine ih (chooseBetter best ((recAim s aim σ).1, aim)) _ _ ?_ h2
    unfold chooseBetter
    by_cases hcb : (recAim s aim σ).1 < best.1
    · rw [if_pos hcb]
      exact h1
    · rw [if_neg hcb]
      exact hb

/-- Value bound for `solve`: on a `MemoGood` table, the returned score is
non-negative, at least 1 on a positive state, and the table stays
`MemoGood`. -/
theorem solve_ge_one (game : ThrowFn) (aims : List Vec2)
    (hpos : ∀ a u, ∀ e ∈ game a u, 0 ≤ e.2) :
    ∀ (f s : ℕ) (σ : SolverSt), MemoGood σ →
      0 ≤ (solve game aims f s σ).1.1 ∧
      (s ≠ 0 → 1 ≤ (solve game aims f s σ).1.1) ∧
      MemoGood (solve game aims f s σ).2 := by
  intro f
  induction f with
  | zero =>
    intro s σ hg
    refine ⟨by norm_num [solve, INFINITE_SCORE], ?_, hg⟩
    intro _
    norm_num [solve, INFINITE_SCORE]
  | succ f ih =>
    intro s σ hg
    by_cases hs0 : s = 0
    · subst hs0
      have hred : solve game aims (f + 1) 0 σ =
          ((0, ⟨0, 0⟩), ⟨σ.memo, 0 :: σ.winable⟩) := by
        simp [solve]
      rw [hred]
      exact ⟨le_rfl, fun h => absurd rfl h, hg⟩
    · cases hm : mfind σ.memo s with
      | some v =>
        have hred : solve game aims (f + 1) s σ = (v, σ) := by
          simp [solve, hs0, hm]
        rw [hred]
        have h1 := hg s v hm
        exact ⟨by linarith, fun _ => h1, hg⟩
      | none =>
        have hrec : ∀ u σ', MemoGood σ' →
            0 ≤ (solve game aims f u σ').1.1 ∧
            MemoGood (solve game aims f u σ').2 :=
          fun u σ' hg' => ⟨(ih u σ' hg').1, (ih u σ' hg').2.2⟩
        have haim : ∀ u aim σ', MemoGood σ' →
            1 ≤ (solveAimWith (solve game aims f) game u aim σ').1 ∧
            MemoGood (solveAimWith (solve game aims f) game u aim σ').2 :=
          fun u aim σ' hg' => solveAimWith_ge_one hrec hpos u aim σ' hg'
        obtain ⟨hb, hgf⟩ := solveGo_ge_one haim s aims
          (INFINITE_SCORE, ⟨0, 0⟩) false σ (by norm_num [INFINITE_SCORE]) hg
        rw [solve_fresh_eq game aims f s σ hs0 hm]
        refine ⟨by linarith, fun _ => hb, ?_⟩
        intro k v hkv
        have hkv' : (if s = k then
            some (solveGo (solveAimWith (solve game aims f) game) s aims
              ((INFINITE_SCORE, ⟨0, 0⟩), false, σ)).1
          else mfind (solveGo (solveAimWith (solve game aims f) game) s aims
            ((INFINITE_SCORE, ⟨0, 0⟩), false, σ)).2.2.memo k) = some v := hkv
        by_cases hsk : s = k
        · rw [if_pos hsk] at hkv'
          have : v = (solveGo (solveAimWith (solve game aims f) game) s aims
              ((INFINITE_SCORE, ⟨0, 0⟩), false, σ)).1 :=
            (Option.some.injEq _ _ ▸ hkv').symm
          rw [this]
          exact hb
        · rw [if_neg hsk] at hkv'
          exact hgf k v hkv'

/-- **C6.** For every winnable state `s > 0` of a well-configured
minimum-expected-throws solver (non-negative transition masses, fresh
tables), the value returned by `solve(s)` is at least 1. -/
theorem c6_solve_value_ge_one (game : ThrowFn) (aims : List Vec2)
    (f s : ℕ) (hs : 0 < s)
    (hpos : ∀ a u, ∀ e ∈ game a u, 0 ≤ e.2)
    (hwin : s ∈ (solve game aims f s ⟨[], []⟩).2.winable) :
    1 ≤ (solve game aims f s ⟨[], []⟩).1.1 :=
  (solve_ge_one game aims hpos f s ⟨[], []⟩
    (fun k v h => by simp [mfind] at h)).2.1 (by omega)

/-- Witness for C6: on the concrete game, state 2 is winnable (it enters
the winnability set) and its value — which evaluates to 2 expected throws —
is at least 1. -/
theorem c6_solve_value_ge_one_witness :
    2 ∈ (solve testThrow testAims 3 2 ⟨[], []⟩).2.winable ∧
    (solve testThrow testAims 3 2 ⟨[], []⟩).1.1 = 2 ∧
    1 ≤ (solve testThrow testAims 3 2 ⟨[], []⟩).1.1 := by
  have hwin : 2 ∈ (solve testThrow testAims 3 2 ⟨[], []⟩).2.winable := by
    norm_num [solve, solveGo, solveAimWith, solveAimGo, chooseBetter, mfind,
      testThrow, testAims, EPSILON, INFINITE_SCORE]
  refine ⟨hwin, ?_, ?_⟩
  · norm_num [solve, solveGo, solveAimWith, solveAimGo, chooseBetter, mfind,
      testThrow, testAims, EPSILON, INFINITE_SCORE]
  · exact c6_solve_value_ge_one testThrow testAims 3 2 (by omega)
      testThrow_pos hwin

/-- Witness for C1: the closed form instantiated on the concrete game at
state 2 with fuel 2, where the only aim escapes the self-loop with mass
`1/2` (the dead-end successor 1 and the self-transition fold into `p_self`)
and the expected number of throws evaluates to `(1 + 0)/(1 − 1/2) = 2`. -/
theorem c1_solve_aim_closed_form_witness :
    (solve_aim testThrow testAims 2 2 ⟨0, 0⟩ ⟨[], []⟩).1 = 2 ∧
    solve_aim testThrow testAims 2 2 ⟨0, 0⟩ ⟨[], []⟩ =
      ((if 1 - EPSILON ≤
          pSelfW 2 (succFold (solve testThrow testAims 2) 2
              (testThrow ⟨0, 0⟩ 2) ⟨[], []⟩).winable (testThrow ⟨0, 0⟩ 2) then
        INFINITE_SCORE
      else
        (1 + expW
            (fun u => (solve testThrow testAims 2 u
              (succFold (solve testThrow testAims 2) 2 (testThrow ⟨0, 0⟩ 2)
                ⟨[], []⟩)).1.1) 2
            (succFold (solve testThrow testAims 2) 2 (testThrow ⟨0, 0⟩ 2)
              ⟨[], []⟩).winable (testThrow ⟨0, 0⟩ 2)) /
          (1 - pSelfW 2 (succFold (solve testThrow testAims 2) 2
              (testThrow ⟨0, 0⟩ 2) ⟨[], []⟩).winable (testThrow ⟨0, 0⟩ 2))),
        succFold (solve testThrow testAims 2) 2 (testThrow ⟨0, 0⟩ 2)
          ⟨[], []⟩) :=
  ⟨by
    norm_num [solve_aim, solve, solveGo, solveAimWith, solveAimGo,
      chooseBetter, mfind, testThrow, testAims, EPSILON, INFINITE_SCORE],
    (c1_solve_aim_closed_form testThrow testAims 2 2 ⟨0, 0⟩ ⟨[], []⟩
      (by omega) (by omega) testThrow_dec).1⟩

end SolverMinThrows

/-- Witness for C7 (amended): at `N = 8` the aim grid is `4 × 2` and the
cell `(1, 1)` sits at position 3 with the stated center. -/
theorem c7_amended_sample_aims_witness :
    (Solver.sample_aims ⟨0, 0⟩ ⟨1, 1⟩ 8).length = 8 ∧
    (Solver.sample_aims ⟨0, 0⟩ ⟨1, 1⟩ 8)[3]? =
      some (⟨3 / 8, 3 / 4⟩ : Vec2) := by
  have h2 : Nat.sqrt 8 = 2 := ((Nat.eq_sqrt).mpr (by norm_num)).symm
  have h4 : (8 : ℕ) / Nat.sqrt 8 = 4 := by rw [h2]
  obtain ⟨hlen, hget, _⟩ := c7_amended_sample_aims ⟨0, 0⟩ ⟨1, 1⟩ 8 1 1
    (by rw [h4]; omega) (by rw [h2]; omega)
  constructor
  · rw [hlen, h4, h2]
  · rw [show (3 : ℕ) = 1 * Nat.sqrt 8 + 1 by rw [h2], hget, h4, h2]
    norm_num